import Mathlib

/-!
Verification of the plan-tree enrichment pass of `ddbplan` (`src/main.rs`).

The development shallowly embeds the data model (`Attribute`, `Condition`,
`Join`, `Scan`, `Project`, `Op`, `Node`) and the enrichment pass
(`parse_tree_extra_info` together with its traversal `inorder_traverse_mut`
and its per-kind closure `parse_func`).  Rust panics (both explicit
`panic!` calls and implicit out-of-bounds slice indexing) are modelled by
the `Except PanicKind` monad, with the two panic sources kept distinct.
Rust's `str::split` / `str::trim` are re-implemented structurally over
`String.data` so that all definitions evaluate inside the kernel.
-/

/-! ## Data model (src/main.rs lines 9-72) -/

inductive JoinType where
  | Inner : JoinType
  | LeftOuter : JoinType
  | RightOuter : JoinType
  | FullOuter : JoinType
  deriving DecidableEq

structure Attribute where
  table_name : String
  attr_name : String
  deriving DecidableEq

structure Condition where
  left_attr : Attribute
  right_attr : Attribute
  deriving DecidableEq

structure Join where
  join_type : JoinType
  equalizers : List Condition
  deriving DecidableEq

structure Scan where
  table_name : String
  attributes : List Attribute
  deriving DecidableEq

structure Project where
  columns : List Attribute
  deriving DecidableEq

inductive Op where
  | join : Join → Op
  | scan : Scan → Op
  | project : Project → Op
  | filter : Op
  deriving DecidableEq

/-- The plan-tree vertex, `struct Node` (lines 60-72).  `timing: f64` is
carried as `Float`; the enricher never reads or computes with it.
`cardinality: u64` is carried as `Nat`; no arithmetic is ever performed on
it, so overflow cannot arise.  `children: Vec<Box<Node>>` becomes a
`List Node`, and `attr: Option<Op>` an `Option Op`. -/
inductive Node where
  | mk (name : String) (timing : Float) (cardinality : Nat) (extra_info : String)
       (children : List Node) (attr : Option Op) : Node

def Node.name : Node → String
  | .mk n _ _ _ _ _ => n

def Node.timing : Node → Float
  | .mk _ t _ _ _ _ => t

def Node.cardinality : Node → Nat
  | .mk _ _ c _ _ _ => c

def Node.extra_info : Node → String
  | .mk _ _ _ e _ _ => e

def Node.children : Node → List Node
  | .mk _ _ _ _ c _ => c

def Node.attr : Node → Option Op
  | .mk _ _ _ _ _ a => a

/-! ## Rust string primitives

Rust's `str::split(char)`, `str::split(&str)`, `str::trim` and
`str::is_empty`, re-implemented by structural recursion over the
character list of a `String` so that every definition reduces in the
kernel.  `str::trim` strips Unicode `White_Space`; all annotation text in
scope is ASCII, for which `Char.isWhitespace` agrees. -/

/-- Rust `s.split(c)` for a single-character pattern: the chunks of `s`
between occurrences of `c`.  Always returns at least one chunk; splitting
the empty list gives `[[]]`, matching `"".split(c) == [""]`. -/
def splitChar (c : Char) : List Char → List (List Char)
  | [] => [[]]
  | a :: rest =>
    if a = c then [] :: splitChar c rest
    else
      match splitChar c rest with
      | [] => [[a]]
      | r :: rs => (a :: r) :: rs

/-- Rust `s.split(sep)` for a multi-character pattern: chunks between
non-overlapping occurrences of `sep`, scanned left to right.  Structural
recursion on a fuel argument; with `fuel ≥ s.length` and `sep ≠ []` the
fuel-exhaustion clause is unreachable, since every step consumes at least
one character. -/
def splitSeqFuel (sep : List Char) : Nat → List Char → List (List Char)
  | _, [] => [[]]
  | 0, s => [s]
  | fuel + 1, a :: rest =>
    if sep.isPrefixOf (a :: rest) ∧ sep ≠ [] then
      [] :: splitSeqFuel sep fuel ((a :: rest).drop sep.length)
    else
      match splitSeqFuel sep fuel rest with
      | [] => [[a]]
      | r :: rs => (a :: r) :: rs

def splitSeq (sep : List Char) (s : List Char) : List (List Char) :=
  splitSeqFuel sep s.length s

/-- Rust `s.trim()`: drop whitespace from both ends. -/
def trimChars (l : List Char) : List Char :=
  ((l.dropWhile Char.isWhitespace).reverse.dropWhile Char.isWhitespace).reverse

def splitOnChar (c : Char) (s : String) : List String :=
  (splitChar c s.data).map String.mk

def splitOnSeq (sep : String) (s : String) : List String :=
  (splitSeq sep.data s.data).map String.mk

def trimS (s : String) : String := ⟨trimChars s.data⟩

/-- `node.extra_info.split('\n').filter(|s| !s.is_empty())`, the line
preprocessing shared by the `HASH_JOIN` and `PROJECTION` arms. -/
def nonEmptyLines (s : String) : List String :=
  (splitOnChar '\n' s).filter (fun x => !x.isEmpty)

/-! ## Panics and slice indexing -/

/-- A Rust panic: either an implicit out-of-bounds slice index such as
`extra_info[1]`, or an explicit `panic!` with its formatted message. -/
inductive PanicKind where
  | indexOutOfBounds : PanicKind
  | explicitPanic (msg : String) : PanicKind
  deriving DecidableEq

instance {ε α : Type} [DecidableEq ε] [DecidableEq α] : DecidableEq (Except ε α) :=
  fun a b =>
    match a, b with
    | .error x, .error y =>
      if h : x = y then .isTrue (by rw [h]) else .isFalse (by simp [h])
    | .error _, .ok _ => .isFalse (by simp)
    | .ok _, .error _ => .isFalse (by simp)
    | .ok x, .ok y =>
      if h : x = y then .isTrue (by rw [h]) else .isFalse (by simp [h])

/-- Rust slice indexing `v[i]`: the element, or an index-out-of-bounds
panic. -/
def idx {α : Type} (l : List α) (i : Nat) : Except PanicKind α :=
  match l[i]? with
  | some x => .ok x
  | none => .error .indexOutOfBounds

/-! ## The per-kind parsing closure `parse_func` (src/main.rs lines 82-192) -/

/-- Lines 113-136: build one side of a `Condition` from the `.`-split,
trimmed parts of one side of a predicate.  One part means the raw text had
no table qualifier: the token is used for both `table_name` and
`attr_name`.  Otherwise parts 0 and 1 are table and attribute name. -/
def attrFromParts (parts : List String) : Except PanicKind Attribute :=
  if parts.length = 1 then
    match idx parts 0 with
    | .error err => .error err
    | .ok p0 => .ok ⟨p0, p0⟩
  else
    match idx parts 0 with
    | .error err => .error err
    | .ok p0 =>
      match idx parts 1 with
      | .error err => .error err
      | .ok p1 => .ok ⟨p0, p1⟩

/-- Lines 96-137: the `for pred in &extra_info[1..]` loop accumulating
`equalizers`, one `Condition` per predicate line. -/
def parseEqualizers (preds : List String) : Except PanicKind (List Condition) :=
  match preds with
  | [] => .ok []
  | pred :: rest =>
    let equalizer := (splitOnChar '=' pred).map trimS
    match idx equalizer 0 with
    | .error err => .error err
    | .ok e0 =>
      match idx equalizer 1 with
      | .error err => .error err
      | .ok e1 =>
        let left_attr := (splitOnChar '.' e0).map trimS
        let right_attr := (splitOnChar '.' e1).map trimS
        match attrFromParts left_attr with
        | .error err => .error err
        | .ok la =>
          match attrFromParts right_attr with
          | .error err => .error err
          | .ok ra =>
            match parseEqualizers rest with
            | .error err => .error err
            | .ok conds => .ok (Condition.mk la ra :: conds)

/-- Lines 172-182: build one `PROJECTION` column from the `.`-split,
trimmed parts of one line.  One part means an unqualified column:
empty-string table placeholder. -/
def projAttrFromParts (names : List String) : Except PanicKind Attribute :=
  if names.length = 1 then
    match idx names 0 with
    | .error err => .error err
    | .ok n0 => .ok ⟨"", n0⟩
  else
    match idx names 0 with
    | .error err => .error err
    | .ok n0 =>
      match idx names 1 with
      | .error err => .error err
      | .ok n1 => .ok ⟨n0, n1⟩

/-- Lines 164-184: the `PROJECTION` `map` over non-empty lines. -/
def parseColumns (lines : List String) : Except PanicKind (List Attribute) :=
  match lines with
  | [] => .ok []
  | s :: rest =>
    let names := (splitOnChar '.' s).map trimS
    match projAttrFromParts names with
    | .error err => .error err
    | .ok col =>
      match parseColumns rest with
      | .error err => .error err
      | .ok cols => .ok (col :: cols)

/-- The closure `parse_func` (lines 82-192).  It reads `node.name`,
`node.extra_info` and (implicitly, by leaving it untouched) `node.attr`,
and yields the node's new `attr` field; every other field is untouched by
the source closure, whose only write is `node.attr = ...`.  The arms
appear in source order. -/
def parseFunc (n : Node) : Except PanicKind (Option Op) :=
  if n.name = "HASH_JOIN" then
    -- lines 83-143
    let extra_info := nonEmptyLines n.extra_info
    match idx extra_info 0 with
    | .error err => .error err
    | .ok line0 =>
      if line0 = "INNER" then
        match parseEqualizers (extra_info.drop 1) with
        | .error err => .error err
        | .ok equalizers => .ok (some (.join ⟨.Inner, equalizers⟩))
      else if line0 = "MARK" then
        -- `return`: the closure exits, leaving `node.attr` unchanged
        .ok n.attr
      else
        .error (.explicitPanic ("Fail to parse Join Type " ++ line0))
  else if n.name = "SEQ_SCAN" then
    -- lines 144-162
    let extra_info := splitOnSeq "[INFOSEPARATOR]" n.extra_info
    match idx extra_info 0 with
    | .error err => .error err
    | .ok p0 =>
      let table_name := trimS p0
      match idx extra_info 1 with
      | .error err => .error err
      | .ok p1 =>
        let info_strs := (splitOnChar '\n' p1).filter (fun x => !x.isEmpty)
        .ok (some (.scan ⟨table_name, info_strs.map (fun s => ⟨table_name, s⟩)⟩))
  else if n.name = "PROJECTION" then
    -- lines 163-186
    match parseColumns (nonEmptyLines n.extra_info) with
    | .error err => .error err
    | .ok columns => .ok (some (.project ⟨columns⟩))
  else if n.name = "CHUNK_SCAN" ∨ n.name = "RESULT_COLLECTOR" ∨
          n.name = "SIMPLE_AGGREGATE" ∨ n.name = "Query" then
    -- line 187: `{}` — the closure does nothing, `node.attr` unchanged
    .ok n.attr
  else if n.name = "FILTER" then
    -- lines 188-190
    .ok (some .filter)
  else
    -- line 191
    .error (.explicitPanic ("Unknown node type " ++ n.name))

/-! ## The traversal `inorder_traverse_mut` (lines 197-210) and
`parse_tree_extra_info` (lines 81-195) -/

mutual
/-- `inorder_traverse_mut`, generic in the visiting closure `f` like the
Rust original is generic in `T: FnMut(&mut Node)` — specialised to
closures (such as `parse_func`) whose only mutation is writing
`node.attr`, which is why `f` returns the new `attr` value.  The second
component of the result instruments the traversal with the sequence of
nodes `func` is applied to (each in the state it is seen: the first child
already enriched), so claims about visitation order can be stated.  A
panic inside `f` aborts the whole traversal, as unwinding does in Rust. -/
def travNode (f : Node → Except PanicKind (Option Op)) (n : Node) :
    Except PanicKind (Node × List Node) :=
  match n with
  | .mk nm t c e [] a =>
    -- childless: only `func(node)` runs
    match f (.mk nm t c e [] a) with
    | .error err => .error err
    | .ok a' => .ok (.mk nm t c e [] a', [Node.mk nm t c e [] a])
  | .mk nm t c e (c0 :: cs) a =>
    -- lines 201-203: recurse into children[0]
    match travNode f c0 with
    | .error err => .error err
    | .ok (c0', log0) =>
      -- line 204: func(node), with children[0] already enriched
      match f (.mk nm t c e (c0' :: cs) a) with
      | .error err => .error err
      | .ok a' =>
        -- lines 205-209: recurse into children[1..]
        match travList f cs with
        | .error err => .error err
        | .ok (cs', logs) =>
          .ok (.mk nm t c e (c0' :: cs') a',
               log0 ++ Node.mk nm t c e (c0' :: cs) a :: logs)
/-- The `for child_node in &mut node.children[1..]` loop of
`inorder_traverse_mut`. -/
def travList (f : Node → Except PanicKind (Option Op)) (l : List Node) :
    Except PanicKind (List Node × List Node) :=
  match l with
  | [] => .ok ([], [])
  | c :: cs =>
    match travNode f c with
    | .error err => .error err
    | .ok (c', lg) =>
      match travList f cs with
      | .error err => .error err
      | .ok (cs', lgs) => .ok (c' :: cs', lg ++ lgs)
end

/-- `parse_tree_extra_info` (lines 81-195): run `parse_func` over the tree
via `inorder_traverse_mut`.  Returns the enriched tree, or the panic that
aborted the pass. -/
def parse_tree_extra_info (root : Node) : Except PanicKind Node :=
  match travNode parseFunc root with
  | .error err => .error err
  | .ok (root', _) => .ok root'

/-! ## Spec-side definitions

Definitions named `claim…` transcribe the frozen claims' words literally
and are used to exhibit where the code diverges from them; definitions
named `amended…` transcribe the amended claims and are proved equal to
the source-derived behaviour. -/

/-- Split-once at the first occurrence of `c`: the text before it and
everything after it; `none` when `c` does not occur. -/
def splitOnceChar (c : Char) : List Char → Option (List Char × List Char)
  | [] => none
  | a :: rest =>
    if a = c then some ([], rest)
    else
      match splitOnceChar c rest with
      | none => none
      | some (l, r) => some (a :: l, r)

def splitOnceS (c : Char) (s : String) : Option (String × String) :=
  match splitOnceChar c s.data with
  | none => none
  | some (l, r) => some (⟨l⟩, ⟨r⟩)

/-- Claim C2 as frozen, one side of a predicate: the side trimmed and
split on `.`; no dot gives the whole token as both names, one dot gives
the literal part before the dot as table name and the literal part after
as attribute name (no further trimming of the parts).  `none` for two or
more dots, a shape the claim does not describe. -/
def claimSideAttribute (side : String) : Option Attribute :=
  match splitOnChar '.' (trimS side) with
  | [t] => some ⟨t, t⟩
  | [t1, t2] => some ⟨t1, t2⟩
  | _ => none

/-- Claim C2 as frozen, one predicate line: "an equality predicate of the
form `L=R`, split once on `=`", then each side as in
`claimSideAttribute`. -/
def claimEqualizer (pred : String) : Option Condition :=
  match splitOnceS '=' pred with
  | none => none
  | some (l, r) =>
    match claimSideAttribute l, claimSideAttribute r with
    | some la, some ra => some ⟨la, ra⟩
    | _, _ => none

/-- Claim C2 as amended, one side of a predicate: the (already trimmed)
side split on `.` with each token trimmed; no dot gives the token as
both names, one dot gives the token before the dot as table name and the
token after as attribute name.  `none` for two or more dots. -/
def amendedSideAttribute (side : String) : Option Attribute :=
  match (splitOnChar '.' side).map trimS with
  | [t] => some ⟨t, t⟩
  | [t1, t2] => some ⟨t1, t2⟩
  | _ => none

/-- Claim C2 as amended, one predicate line: split on *every* `=` with
each piece trimmed; pieces 0 and 1 are the left and right sides, any
further pieces are ignored; then each side as in
`amendedSideAttribute`.  `none` when the line has no `=`. -/
def amendedEqualizer (pred : String) : Option Condition :=
  match (splitOnChar '=' pred).map trimS with
  | e0 :: e1 :: _ =>
    match amendedSideAttribute e0, amendedSideAttribute e1 with
    | some la, some ra => some ⟨la, ra⟩
    | _, _ => none
  | _ => none

/-- Claim C5 as frozen, one `PROJECTION` line: "each line trimmed then
split on `.`"; no dot gives the empty-string table placeholder with the
whole token as attribute name, one dot gives the literal part before the
dot as table name and the literal part after as attribute name (no
further trimming of the parts).  `none` for two or more dots. -/
def claimProjectionColumn (line : String) : Option Attribute :=
  match splitOnChar '.' (trimS line) with
  | [t] => some ⟨"", t⟩
  | [t1, t2] => some ⟨t1, t2⟩
  | _ => none

/-- Claim C5 as amended, one `PROJECTION` line: each line trimmed then
split on `.` with each resulting token *also trimmed*; no dot gives the
empty-string table placeholder with the token as attribute name, one dot
gives the token before the dot as table name and the token after as
attribute name.  `none` for two or more dots. -/
def amendedProjectionColumn (line : String) : Option Attribute :=
  match (splitOnChar '.' (trimS line)).map trimS with
  | [t] => some ⟨"", t⟩
  | [t1, t2] => some ⟨t1, t2⟩
  | _ => none

/-- Claim C3's wording for a `SEQ_SCAN` annotation: split on
`"[INFOSEPARATOR]"` into exactly two parts; part 0 trimmed is the table
name; part 1 newline-split, blank lines dropped, *each remaining line
trimmed* into a column name carrying the scan's table name. -/
def specScan (extra : String) : Option Scan :=
  match splitOnSeq "[INFOSEPARATOR]" extra with
  | [p0, p1] =>
    some ⟨trimS p0,
          ((splitOnChar '\n' p1).filter (fun x => !x.isEmpty)).map
            (fun s => ⟨trimS p0, trimS s⟩)⟩
  | _ => none

/-- Claim C3 amended to the code's behaviour: identical except that the
column lines are kept verbatim, *not* trimmed. -/
def amendedScan (extra : String) : Option Scan :=
  match splitOnSeq "[INFOSEPARATOR]" extra with
  | [p0, p1] =>
    some ⟨trimS p0,
          ((splitOnChar '\n' p1).filter (fun x => !x.isEmpty)).map
            (fun s => ⟨trimS p0, s⟩)⟩
  | _ => none

mutual
/-- Spec wording of the traversal order: "first recursively enrich the
first child, then enrich the node itself, then recursively enrich the
remaining children left-to-right". -/
def inorderList : Node → List Node
  | .mk nm t c e [] a => [.mk nm t c e [] a]
  | .mk nm t c e (c0 :: cs) a =>
    inorderList c0 ++ Node.mk nm t c e (c0 :: cs) a :: inorderListL cs
def inorderListL : List Node → List Node
  | [] => []
  | x :: xs => inorderList x ++ inorderListL xs
end

mutual
/-- All nodes of a tree, in plain preorder — the reference enumeration
against which "every node exactly once" is measured. -/
def allNodes : Node → List Node
  | .mk nm t c e cs a => Node.mk nm t c e cs a :: allNodesL cs
def allNodesL : List Node → List Node
  | [] => []
  | x :: xs => allNodes x ++ allNodesL xs
end

mutual
/-- Erase every `attr` field in a tree.  Two trees with equal `stripAttrs`
agree on every `name`, `timing`, `cardinality`, `extra_info` and on the
whole children structure: everything except the `attr` fields. -/
def stripAttrs : Node → Node
  | .mk nm t c e cs _ => .mk nm t c e (stripAttrsL cs) none
def stripAttrsL : List Node → List Node
  | [] => []
  | x :: xs => stripAttrs x :: stripAttrsL xs
end

mutual
/-- Every node of the tree has an empty `attr`, the state of a freshly
deserialized profile ("`operator` starts empty"). -/
def allAttrsNone : Node → Bool
  | .mk _ _ _ _ cs a => a.isNone && allAttrsNoneL cs
def allAttrsNoneL : List Node → Bool
  | [] => true
  | x :: xs => allAttrsNone x && allAttrsNoneL xs
end

/-- The pass-through kinds of line 187. -/
def passKinds : List String := ["CHUNK_SCAN", "RESULT_COLLECTOR", "SIMPLE_AGGREGATE", "Query"]

/-- `needle` occurs as a contiguous subsequence of `hay` — used to state
that a panic message contains the offending kind name. -/
def containsSeq (needle : List Char) : List Char → Bool
  | [] => needle.isEmpty
  | a :: rest => needle.isPrefixOf (a :: rest) || containsSeq needle rest

/-- Append `w` to the last chunk of a chunk list — how a separator-free
suffix of the input shows up in the output of `splitChar`. -/
def appendLast (w : List Char) : List (List Char) → List (List Char)
  | [] => [w]
  | [x] => [x ++ w]
  | x :: y :: xs => x :: appendLast w (y :: xs)

mutual
/-- Every node of a pass-through kind has an empty `attr`. -/
def passAttrsNone : Node → Bool
  | .mk nm _ _ _ cs a => (!(passKinds.contains nm) || a.isNone) && passAttrsNoneL cs
def passAttrsNoneL : List Node → Bool
  | [] => true
  | x :: xs => passAttrsNone x && passAttrsNoneL xs
end

/-- The Scan invariant for one operator payload: a `Scan`'s attributes all
carry the scan's own table name.  Non-`Scan` payloads satisfy it
vacuously. -/
def attrScanOk : Option Op → Bool
  | some (.scan s) => s.attributes.all (fun x => x.table_name == s.table_name)
  | _ => true

mutual
/-- Every node of the tree whose `attr` holds a `Scan` satisfies the Scan
invariant. -/
def scanInvariantHolds : Node → Bool
  | .mk _ _ _ _ cs a => attrScanOk a && scanInvariantHoldsL cs
def scanInvariantHoldsL : List Node → Bool
  | [] => true
  | x :: xs => scanInvariantHolds x && scanInvariantHoldsL xs
end

/-! ## A concrete profile fixture used by the whole-tree witnesses -/

def scanA : Node := .mk "SEQ_SCAN" 3.5 3 "a[INFOSEPARATOR]x\n" [] none

def scanB : Node := .mk "SEQ_SCAN" 4.5 2 "b[INFOSEPARATOR]y\n" [] none

def scanAOut : Node :=
  .mk "SEQ_SCAN" 3.5 3 "a[INFOSEPARATOR]x\n" [] (some (.scan ⟨"a", [⟨"a", "x"⟩]⟩))

def scanBOut : Node :=
  .mk "SEQ_SCAN" 4.5 2 "b[INFOSEPARATOR]y\n" [] (some (.scan ⟨"b", [⟨"b", "y"⟩]⟩))

def hjNode : Node := .mk "HASH_JOIN" 2.5 5 "INNER\na.x=b.y\n" [scanA, scanB] none

def hjOut : Node :=
  .mk "HASH_JOIN" 2.5 5 "INNER\na.x=b.y\n" [scanAOut, scanBOut]
    (some (.join ⟨.Inner, [⟨⟨"a", "x"⟩, ⟨"b", "y"⟩⟩]⟩))

def projNode : Node := .mk "PROJECTION" 5.5 1 "a.x\n" [] none

def projOut : Node :=
  .mk "PROJECTION" 5.5 1 "a.x\n" [] (some (.project ⟨[⟨"a", "x"⟩]⟩))

def sampleTree : Node := .mk "Query" 1.5 7 "" [hjNode, projNode] none

def sampleEnriched : Node := .mk "Query" 1.5 7 "" [hjOut, projOut] none

/-- The visit sequence of `sampleTree`: each node as `parse_func` sees it
(first child already enriched). -/
def sampleLog : List Node :=
  [scanA,
   .mk "HASH_JOIN" 2.5 5 "INNER\na.x=b.y\n" [scanAOut, scanB] none,
   scanB,
   .mk "Query" 1.5 7 "" [hjOut, projNode] none,
   projNode]

/-! ## Basic lemmas -/

theorem idx_nil {α : Type} (i : Nat) : idx ([] : List α) i = .error .indexOutOfBounds := by
  simp [idx]

theorem idx_zero {α : Type} (x : α) (xs : List α) : idx (x :: xs) 0 = .ok x := by
  simp [idx]

theorem idx_one {α : Type} (x y : α) (xs : List α) : idx (x :: y :: xs) 1 = .ok y := by
  simp [idx]

theorem idx_one_singleton {α : Type} (x : α) : idx [x] 1 = .error .indexOutOfBounds := by
  simp [idx]

theorem splitChar_ne_nil (c : Char) (l : List Char) : splitChar c l ≠ [] := by
  match l with
  | [] => simp [splitChar]
  | a :: rest =>
    rw [splitChar]
    split
    · simp
    · split
      · simp
      · simp

theorem splitOnChar_ne_nil (c : Char) (s : String) : splitOnChar c s ≠ [] := by
  simpa [splitOnChar] using splitChar_ne_nil c s.data

theorem isPrefixOf_self (l : List Char) : l.isPrefixOf l = true := by
  induction l with
  | nil => rfl
  | cons a rest ih => simp [List.isPrefixOf, ih]

theorem containsSeq_append_left (l w : List Char) : containsSeq l (w ++ l) = true := by
  induction w with
  | nil =>
    cases l with
    | nil => rfl
    | cons a rest => simp [containsSeq, isPrefixOf_self]
  | cons a w' ih => simp [containsSeq, ih]

/-! ## Claim theorems: HASH_JOIN dispatch and panics -/

/-- C10: a `HASH_JOIN` node whose `extra_info` has no non-empty lines
aborts via an out-of-bounds index when reading the join-type line
(`extra_info[0]`), and the abort is not a grammar-error `panic!` carrying
a message. -/
theorem hash_join_empty_annotation_index_panic (n : Node)
    (hname : n.name = "HASH_JOIN")
    (hempty : nonEmptyLines n.extra_info = []) :
    parseFunc n = .error .indexOutOfBounds ∧
      ∀ msg, parseFunc n ≠ .error (.explicitPanic msg) := by
  have h : parseFunc n = .error .indexOutOfBounds := by
    unfold parseFunc
    rw [hname, hempty]
    simp [idx_nil]
  refine ⟨h, fun msg hmsg => ?_⟩
  rw [h] at hmsg
  simp at hmsg

/-- C10 witness: the empty annotation is such an input. -/
theorem hash_join_empty_annotation_index_panic_witness :
    parseFunc (.mk "HASH_JOIN" 0.0 0 "" [] none) = .error .indexOutOfBounds ∧
      ∀ msg, parseFunc (.mk "HASH_JOIN" 0.0 0 "" [] none) ≠ .error (.explicitPanic msg) :=
  hash_join_empty_annotation_index_panic (.mk "HASH_JOIN" 0.0 0 "" [] none) rfl (by decide)

/-- C6: on a `HASH_JOIN` node the first non-empty line of `extra_info`
dispatches the result: `"INNER"` can only produce an `Inner` join,
`"MARK"` leaves the node's `attr` unchanged and raises no error no matter
what the remaining lines hold, and any other tag is a fatal `panic!`. -/
theorem hash_join_dispatch (n : Node) (line0 : String) (rest : List String)
    (hname : n.name = "HASH_JOIN")
    (hlines : nonEmptyLines n.extra_info = line0 :: rest) :
    (line0 = "INNER" → ∀ r, parseFunc n = .ok r →
        ∃ eqs, r = some (.join ⟨.Inner, eqs⟩)) ∧
    (line0 = "MARK" → parseFunc n = .ok n.attr) ∧
    (line0 ≠ "INNER" → line0 ≠ "MARK" →
        parseFunc n = .error (.explicitPanic ("Fail to parse Join Type " ++ line0))) := by
  unfold parseFunc
  rw [hname, hlines]
  simp only [idx_zero, reduceIte]
  refine ⟨?_, ?_, ?_⟩
  · intro h0 r hr
    rw [h0] at hr
    rw [if_pos rfl] at hr
    revert hr
    split
    · intro hr; exact absurd hr (by simp)
    · intro hr
      simp only [Except.ok.injEq] at hr
      exact ⟨_, hr.symm⟩
  · intro h0
    rw [h0, if_neg (by decide), if_pos rfl]
  · intro h1 h2
    rw [if_neg h1, if_neg h2]

/-- C6 witness: `"MARK\n"` leaves `attr` empty without error, and
`"BOGUS\n"` is a fatal join-type parse error. -/
theorem hash_join_dispatch_witness :
    parseFunc (.mk "HASH_JOIN" 0.0 0 "MARK\njunk=lines\n" [] none) = .ok none ∧
    parseFunc (.mk "HASH_JOIN" 0.0 0 "BOGUS\n" [] none) =
      .error (.explicitPanic ("Fail to parse Join Type " ++ "BOGUS")) :=
  ⟨(hash_join_dispatch (.mk "HASH_JOIN" 0.0 0 "MARK\njunk=lines\n" [] none)
      "MARK" ["junk=lines"] rfl (by decide)).2.1 rfl,
   (hash_join_dispatch (.mk "HASH_JOIN" 0.0 0 "BOGUS\n" [] none)
      "BOGUS" [] rfl (by decide)).2.2 (by decide) (by decide)⟩

/-- C8: any node whose kind is none of the eight recognized names is a
fatal `panic!` whose message contains the offending kind name, whatever
`extra_info` holds. -/
theorem unknown_kind_panics_with_name (n : Node)
    (h : n.name ∉ ["HASH_JOIN", "SEQ_SCAN", "PROJECTION", "CHUNK_SCAN",
                   "RESULT_COLLECTOR", "SIMPLE_AGGREGATE", "Query", "FILTER"]) :
    parseFunc n = .error (.explicitPanic ("Unknown node type " ++ n.name)) ∧
      containsSeq n.name.data ("Unknown node type " ++ n.name).data = true := by
  simp only [List.mem_cons, List.not_mem_nil, or_false, not_or] at h
  obtain ⟨h1, h2, h3, h4, h5, h6, h7, h8⟩ := h
  constructor
  · unfold parseFunc
    rw [if_neg h1, if_neg h2, if_neg h3, if_neg (by simp [h4, h5, h6, h7]), if_neg h8]
  · exact containsSeq_append_left n.name.data "Unknown node type ".data

/-- C8 witness: an unrecognized `WINDOW` node. -/
theorem unknown_kind_panics_with_name_witness :
    parseFunc (.mk "WINDOW" 0.0 0 "w" [] none) =
      .error (.explicitPanic ("Unknown node type " ++ "WINDOW")) ∧
    containsSeq ("WINDOW").data ("Unknown node type " ++ "WINDOW").data = true :=
  unknown_kind_panics_with_name (.mk "WINDOW" 0.0 0 "w" [] none) (by decide)

/-! ## Claim theorems: SEQ_SCAN -/

/-- C7 as stated is false: with more than two `[INFOSEPARATOR]` parts the
code does not abort — it uses parts 0 and 1 and silently ignores the
rest.  Here a three-part annotation enriches successfully. -/
theorem seq_scan_extra_parts_cex :
    (splitOnSeq "[INFOSEPARATOR]" "a[INFOSEPARATOR]b[INFOSEPARATOR]c").length = 3 ∧
    parseFunc (.mk "SEQ_SCAN" 0.0 0 "a[INFOSEPARATOR]b[INFOSEPARATOR]c" [] none) =
      .ok (some (.scan ⟨"a", [⟨"a", "b"⟩]⟩)) := by decide

/-- C7 amended: a `SEQ_SCAN` node aborts (via the out-of-bounds index at
`extra_info[1]`) exactly when the `[INFOSEPARATOR]` split yields fewer
than two parts; whenever the split yields parts `p0 :: p1 :: rest`
(two or more parts, `rest` arbitrary), enrichment succeeds with exactly
the `Scan` built from part 0 (trimmed, the table name) and part 1 (its
non-empty lines, verbatim, as the column names) — the conclusion does
not depend on `rest`, so every further part is ignored. -/
theorem seq_scan_separator_arity_amended (n : Node) (hname : n.name = "SEQ_SCAN") :
    ((splitOnSeq "[INFOSEPARATOR]" n.extra_info).length < 2 →
        parseFunc n = .error .indexOutOfBounds) ∧
    (∀ p0 p1 rest, splitOnSeq "[INFOSEPARATOR]" n.extra_info = p0 :: p1 :: rest →
        parseFunc n = .ok (some (.scan ⟨trimS p0,
          ((splitOnChar '\n' p1).filter (fun x => !x.isEmpty)).map
            (fun s => ⟨trimS p0, s⟩)⟩))) := by
  constructor
  · intro hlt
    cases hsplit : splitOnSeq "[INFOSEPARATOR]" n.extra_info with
    | nil =>
      unfold parseFunc
      rw [hname, hsplit]
      simp [idx_nil]
    | cons p0 rest =>
      cases rest with
      | nil =>
        unfold parseFunc
        rw [hname, hsplit]
        simp [idx_zero, idx_one_singleton]
      | cons p1 rest' =>
        rw [hsplit] at hlt
        simp at hlt
        omega
  · intro p0 p1 rest hsplit
    unfold parseFunc
    rw [hname, hsplit]
    simp [idx_zero, idx_one]

/-- C7 witness: a marker-free annotation splits into one part and aborts
with the out-of-bounds index, while a three-part annotation succeeds
with the `Scan` built from parts 0 and 1 only. -/
theorem seq_scan_separator_arity_amended_witness :
    parseFunc (.mk "SEQ_SCAN" 0.0 0 "noseparator" [] none) = .error .indexOutOfBounds ∧
    parseFunc (.mk "SEQ_SCAN" 0.0 0 "t[INFOSEPARATOR]c1\nc2\n[INFOSEPARATOR]ignored" [] none) =
      .ok (some (.scan ⟨"t", [⟨"t", "c1"⟩, ⟨"t", "c2"⟩]⟩)) :=
  ⟨(seq_scan_separator_arity_amended (.mk "SEQ_SCAN" 0.0 0 "noseparator" [] none) rfl).1
      (by decide),
   (seq_scan_separator_arity_amended
      (.mk "SEQ_SCAN" 0.0 0 "t[INFOSEPARATOR]c1\nc2\n[INFOSEPARATOR]ignored" [] none) rfl).2
      "t" "c1\nc2\n" ["ignored"] (by decide)⟩

/-- C3 as stated is false: the code does not trim the column lines of
part 1.  On `"orders[INFOSEPARATOR] id\n"` the claim predicts column
`"id"`, the code produces `" id"`. -/
theorem seq_scan_trim_cex :
    parseFunc (.mk "SEQ_SCAN" 0.0 0 "orders[INFOSEPARATOR] id\n" [] none) =
      .ok (some (.scan ⟨"orders", [⟨"orders", " id"⟩]⟩)) ∧
    specScan "orders[INFOSEPARATOR] id\n" = some ⟨"orders", [⟨"orders", "id"⟩]⟩ ∧
    Scan.mk "orders" [⟨"orders", " id"⟩] ≠ Scan.mk "orders" [⟨"orders", "id"⟩] := by
  decide

/-- C3 amended: for a `SEQ_SCAN` node whose `extra_info` splits on
`"[INFOSEPARATOR]"` into exactly two parts, part 0 trimmed becomes the
Scan's `table_name`, and part 1 is newline-split with empty lines
dropped, each remaining line kept verbatim (not trimmed) as one
column-name string, each becoming an `Attribute` with the scan's
`table_name`, in line order. -/
theorem seq_scan_parse_amended (n : Node) (s : Scan) (hname : n.name = "SEQ_SCAN")
    (hs : amendedScan n.extra_info = some s) :
    parseFunc n = .ok (some (.scan s)) := by
  cases hsplit : splitOnSeq "[INFOSEPARATOR]" n.extra_info with
  | nil => unfold amendedScan at hs; rw [hsplit] at hs; simp at hs
  | cons p0 rest =>
    cases rest with
    | nil => unfold amendedScan at hs; rw [hsplit] at hs; simp at hs
    | cons p1 rest' =>
      cases rest' with
      | cons p2 rest'' => unfold amendedScan at hs; rw [hsplit] at hs; simp at hs
      | nil =>
        unfold amendedScan at hs
        rw [hsplit] at hs
        simp only [Option.some.injEq] at hs
        subst hs
        unfold parseFunc
        rw [hname, hsplit]
        simp [idx_zero, idx_one]

/-- C3 witness: the spec's own example enriches to
`Scan{orders, [orders.id, orders.amount]}`. -/
theorem seq_scan_parse_amended_witness :
    parseFunc (.mk "SEQ_SCAN" 0.0 0 "orders[INFOSEPARATOR]id\namount\n" [] none) =
      .ok (some (.scan ⟨"orders", [⟨"orders", "id"⟩, ⟨"orders", "amount"⟩]⟩)) :=
  seq_scan_parse_amended (.mk "SEQ_SCAN" 0.0 0 "orders[INFOSEPARATOR]id\namount\n" [] none)
    ⟨"orders", [⟨"orders", "id"⟩, ⟨"orders", "amount"⟩]⟩ rfl (by decide)

/-! ## Claim theorems: HASH_JOIN INNER equalizers (C2) -/

theorem attrFromParts_single (t : String) : attrFromParts [t] = .ok ⟨t, t⟩ := by
  simp [attrFromParts, idx]

theorem attrFromParts_pair (t1 t2 : String) (rest : List String) :
    attrFromParts (t1 :: t2 :: rest) = .ok ⟨t1, t2⟩ := by
  simp [attrFromParts, idx]

/-- C2 as stated is false on two counts, both inside the claim's own
domain.  First, the code trims the dot-split tokens of a side
(`.split('.').map(|s| s.trim())`, lines 100-107) while the claim's
"part before the dot / part after" keeps them literal: at side
`"b . y"` the code yields `b.y`, the claim `⟨"b ", " y"⟩`.  Second, the
code splits on *every* `=` and keeps pieces 0 and 1 (lines 99-104) while
the claim's "split once" keeps everything after the first `=` as the
right side: at line `"x=b=c"` the code's right side is `"b"`, the
claim's `"b=c"`. -/
theorem hash_join_equalizer_cex :
    (parseFunc (.mk "HASH_JOIN" 0.0 0 "INNER\na.x=b . y\n" [] none) =
        .ok (some (.join ⟨.Inner, [⟨⟨"a", "x"⟩, ⟨"b", "y"⟩⟩]⟩)) ∧
      claimEqualizer "a.x=b . y" = some ⟨⟨"a", "x"⟩, ⟨"b ", " y"⟩⟩ ∧
      Condition.mk ⟨"a", "x"⟩ ⟨"b", "y"⟩ ≠ Condition.mk ⟨"a", "x"⟩ ⟨"b ", " y"⟩) ∧
    (parseFunc (.mk "HASH_JOIN" 0.0 0 "INNER\nx=b=c\n" [] none) =
        .ok (some (.join ⟨.Inner, [⟨⟨"x", "x"⟩, ⟨"b", "b"⟩⟩]⟩)) ∧
      claimEqualizer "x=b=c" = some ⟨⟨"x", "x"⟩, ⟨"b=c", "b=c"⟩⟩ ∧
      Condition.mk ⟨"x", "x"⟩ ⟨"b", "b"⟩ ≠ Condition.mk ⟨"x", "x"⟩ ⟨"b=c", "b=c"⟩) := by
  decide

/-- The source's side parser agrees with the amended claim's wording
wherever the latter is defined. -/
theorem amendedSideAttribute_sound (side : String) (la : Attribute)
    (h : amendedSideAttribute side = some la) :
    attrFromParts ((splitOnChar '.' side).map trimS) = .ok la := by
  unfold amendedSideAttribute at h
  cases htoks : (splitOnChar '.' side).map trimS with
  | nil => rw [htoks] at h; simp at h
  | cons t ts =>
    cases ts with
    | nil =>
      rw [htoks] at h
      simp only [Option.some.injEq] at h
      rw [← h]
      exact attrFromParts_single t
    | cons t2 ts2 =>
      cases ts2 with
      | nil =>
        rw [htoks] at h
        simp only [Option.some.injEq] at h
        rw [← h]
        exact attrFromParts_pair t t2 []
      | cons t3 ts3 => rw [htoks] at h; simp at h

/-- The source's predicate loop agrees with the amended claim's wording
(one `Condition` per line, in order) wherever the latter is defined. -/
theorem parseEqualizers_amended (preds : List String) (conds : List Condition)
    (h : preds.mapM amendedEqualizer = some conds) :
    parseEqualizers preds = .ok conds := by
  induction preds generalizing conds with
  | nil =>
    simp only [List.mapM_nil, pure, Option.some.injEq] at h
    rw [← h]
    rfl
  | cons pred rest ih =>
    rw [List.mapM_cons] at h
    cases hc : amendedEqualizer pred with
    | none => rw [hc] at h; simp at h
    | some c0 =>
      rw [hc] at h
      cases hrest : rest.mapM amendedEqualizer with
      | none => rw [hrest] at h; simp at h
      | some cs' =>
        rw [hrest] at h
        unfold amendedEqualizer at hc
        cases hsp : (splitOnChar '=' pred).map trimS with
        | nil => rw [hsp] at hc; simp at hc
        | cons e0 r1 =>
          cases r1 with
          | nil => rw [hsp] at hc; simp at hc
          | cons e1 restp =>
            rw [hsp] at hc
            have hc2 : (match amendedSideAttribute e0, amendedSideAttribute e1 with
                | some la, some ra => some (Condition.mk la ra)
                | _, _ => none) = some c0 := hc
            cases hl : amendedSideAttribute e0 with
            | none => rw [hl] at hc2; simp at hc2
            | some la =>
              cases hr : amendedSideAttribute e1 with
              | none => rw [hl, hr] at hc2; simp at hc2
              | some ra =>
                rw [hl, hr] at hc2
                simp only [Option.some.injEq] at hc2
                unfold parseEqualizers
                rw [hsp]
                simp only [idx_zero, idx_one,
                  amendedSideAttribute_sound e0 la hl, amendedSideAttribute_sound e1 ra hr,
                  ih cs' hrest]
                have h2 : c0 :: cs' = conds := Option.some.inj h
                rw [← h2, ← hc2]

/-- C2 amended: on a `HASH_JOIN` node whose first non-empty annotation
line is `"INNER"`, each remaining non-empty line is split on *every* `=`
with each piece trimmed; pieces 0 and 1 are the left and right sides
(further pieces ignored); each side is split on `.` with each token
trimmed, a dotless side giving a self-named `Attribute` and a one-dot
side giving the tokens before and after the dot as table and attribute
name; each line becomes one `Condition`, and the node's operator becomes
the `Inner` join with those conditions in line order. -/
theorem hash_join_inner_equalizers_amended (n : Node) (preds : List String)
    (conds : List Condition)
    (hname : n.name = "HASH_JOIN")
    (hlines : nonEmptyLines n.extra_info = "INNER" :: preds)
    (hconds : preds.mapM amendedEqualizer = some conds) :
    parseFunc n = .ok (some (.join ⟨.Inner, conds⟩)) := by
  unfold parseFunc
  rw [hname, hlines]
  simp only [idx_zero, List.drop_succ_cons, List.drop_zero, reduceIte,
    parseEqualizers_amended preds conds hconds]

/-! ## Trimming commutes with dot-splitting

The spec describes `PROJECTION` lines as "trimmed then split on `.`"
while the source splits the raw line and trims the parts.  The two agree:
token-wise trimming of the chunks absorbs the outer trim. -/

theorem ws_ne_of_not_ws {a c : Char} (hc : c.isWhitespace = false)
    (ha : a.isWhitespace = true) : a ≠ c := by
  intro h
  rw [h, hc] at ha
  exact absurd ha (by simp)

theorem dropWhile_append_of_all {α : Type} (p : α → Bool) (u v : List α)
    (h : ∀ a ∈ u, p a = true) : (u ++ v).dropWhile p = v.dropWhile p := by
  induction u with
  | nil => rfl
  | cons a u' ih =>
    have ha := h a (by simp)
    simp only [List.cons_append, List.dropWhile_cons, ha, if_true]
    exact ih (fun x hx => h x (by simp [hx]))

theorem trimChars_nil : trimChars [] = [] := rfl

theorem trimChars_of_all_ws (w : List Char) (h : ∀ a ∈ w, a.isWhitespace = true) :
    trimChars w = [] := by
  unfold trimChars
  rw [List.dropWhile_eq_nil_iff.mpr h]
  rfl

theorem trimChars_cons_ws (a : Char) (l : List Char) (ha : a.isWhitespace = true) :
    trimChars (a :: l) = trimChars l := by
  unfold trimChars
  rw [List.dropWhile_cons_of_pos ha]

theorem trimChars_append_ws (l w : List Char) (h : ∀ a ∈ w, a.isWhitespace = true) :
    trimChars (l ++ w) = trimChars l := by
  induction l with
  | nil => rw [List.nil_append, trimChars_of_all_ws w h, trimChars_nil]
  | cons a l' ih =>
    cases ha : a.isWhitespace with
    | true =>
      rw [List.cons_append, trimChars_cons_ws a (l' ++ w) ha, trimChars_cons_ws a l' ha]
      exact ih
    | false =>
      unfold trimChars
      rw [List.cons_append, List.dropWhile_cons_of_neg (by simp [ha]),
        List.dropWhile_cons_of_neg (by simp [ha])]
      rw [show (a :: (l' ++ w)) = (a :: l') ++ w by simp, List.reverse_append]
      rw [dropWhile_append_of_all Char.isWhitespace w.reverse (a :: l').reverse
        (fun x hx => h x (List.mem_reverse.mp hx))]

theorem splitChar_of_no_sep (c : Char) (l : List Char) (h : ∀ a ∈ l, a ≠ c) :
    splitChar c l = [l] := by
  induction l with
  | nil => rfl
  | cons a l' ih =>
    rw [splitChar, if_neg (h a (by simp)), ih (fun x hx => h x (by simp [hx]))]

theorem splitChar_append_no_sep (c : Char) (l w : List Char) (h : ∀ a ∈ w, a ≠ c) :
    splitChar c (l ++ w) = appendLast w (splitChar c l) := by
  induction l with
  | nil =>
    rw [List.nil_append, splitChar_of_no_sep c w h]
    rfl
  | cons a l' ih =>
    obtain ⟨h2, t2, hsp⟩ := List.exists_cons_of_ne_nil (splitChar_ne_nil c l')
    by_cases hac : a = c
    · rw [List.cons_append, splitChar, if_pos hac, ih, splitChar, if_pos hac, hsp]
      cases t2 with
      | nil => rfl
      | cons y ys => rfl
    · rw [List.cons_append, splitChar, if_neg hac, ih, splitChar, if_neg hac, hsp]
      cases t2 with
      | nil => rfl
      | cons y ys => rfl

theorem map_trim_appendLast (w h : List Char) (t : List (List Char))
    (hw : ∀ a ∈ w, a.isWhitespace = true) :
    (appendLast w (h :: t)).map trimChars = (h :: t).map trimChars := by
  induction t generalizing h with
  | nil => simp [appendLast, trimChars_append_ws h w hw]
  | cons y ys ih => simp only [appendLast, List.map_cons] at ih ⊢; rw [ih]

theorem map_trim_splitChar_front (c : Char) (hc : c.isWhitespace = false)
    (w l : List Char) (hw : ∀ a ∈ w, a.isWhitespace = true) :
    (splitChar c (w ++ l)).map trimChars = (splitChar c l).map trimChars := by
  induction w with
  | nil => rfl
  | cons a w' ih =>
    have ha := hw a (by simp)
    have hw' : ∀ x ∈ w', x.isWhitespace = true := fun x hx => hw x (by simp [hx])
    obtain ⟨h1, t1, hsp⟩ := List.exists_cons_of_ne_nil (splitChar_ne_nil c (w' ++ l))
    rw [List.cons_append, splitChar, if_neg (ws_ne_of_not_ws hc ha), hsp]
    rw [hsp] at ih
    simp only [List.map_cons] at ih ⊢
    rw [trimChars_cons_ws a h1 ha]
    exact ih hw'

/-- Token-wise trimming of the `.`-chunks gives the same result whether or
not the line was trimmed first. -/
theorem map_trim_splitChar_trim (c : Char) (hc : c.isWhitespace = false)
    (l : List Char) :
    (splitChar c (trimChars l)).map trimChars = (splitChar c l).map trimChars := by
  have hdecomp : l = l.takeWhile Char.isWhitespace ++ l.dropWhile Char.isWhitespace :=
    (List.takeWhile_append_dropWhile Char.isWhitespace l).symm
  have hwfront : ∀ a ∈ l.takeWhile Char.isWhitespace, a.isWhitespace = true :=
    fun a ha => List.mem_takeWhile_imp ha
  have hfront : (splitChar c l).map trimChars =
      (splitChar c (l.dropWhile Char.isWhitespace)).map trimChars := by
    conv_lhs => rw [hdecomp]
    exact map_trim_splitChar_front c hc _ _ hwfront
  set u := l.dropWhile Char.isWhitespace with hu
  have hT : trimChars l = (u.reverse.dropWhile Char.isWhitespace).reverse := rfl
  have hwtail : ∀ a ∈ (u.reverse.takeWhile Char.isWhitespace).reverse,
      a.isWhitespace = true :=
    fun a ha => List.mem_takeWhile_imp (List.mem_reverse.mp ha)
  have hudecomp : u = trimChars l ++ (u.reverse.takeWhile Char.isWhitespace).reverse := by
    rw [hT, ← List.reverse_append, List.takeWhile_append_dropWhile, List.reverse_reverse]
  obtain ⟨h2, t2, hsp⟩ := List.exists_cons_of_ne_nil (splitChar_ne_nil c (trimChars l))
  have hback : (splitChar c u).map trimChars = (splitChar c (trimChars l)).map trimChars := by
    conv_lhs => rw [hudecomp]
    rw [splitChar_append_no_sep c (trimChars l) _
      (fun a ha => ws_ne_of_not_ws hc (hwtail a ha)), hsp]
    exact map_trim_appendLast _ h2 t2 hwtail
  rw [hfront, hback]

/-- String-level version of `map_trim_splitChar_trim`. -/
theorem map_trimS_splitOnChar_trimS (c : Char) (hc : c.isWhitespace = false)
    (s : String) :
    (splitOnChar c (trimS s)).map trimS = (splitOnChar c s).map trimS := by
  have key := map_trim_splitChar_trim c hc s.data
  unfold splitOnChar
  rw [List.map_map, List.map_map]
  have hfun : (trimS ∘ String.mk) = (String.mk ∘ trimChars) := by
    funext l
    rfl
  rw [hfun]
  show (splitChar c (trimS s).data).map (String.mk ∘ trimChars) =
    (splitChar c s.data).map (String.mk ∘ trimChars)
  have hdata : (trimS s).data = trimChars s.data := rfl
  rw [hdata, ← List.map_map, ← List.map_map, key]

/-- C2 witness: the spec's example
`"INNER\na.x=b.y\n" ↦ Join{Inner, [Condition{a.x, b.y}]}`. -/
theorem hash_join_inner_equalizers_amended_witness :
    parseFunc (.mk "HASH_JOIN" 0.0 0 "INNER\na.x=b.y\n" [] none) =
      .ok (some (.join ⟨.Inner, [⟨⟨"a", "x"⟩, ⟨"b", "y"⟩⟩]⟩)) :=
  hash_join_inner_equalizers_amended (.mk "HASH_JOIN" 0.0 0 "INNER\na.x=b.y\n" [] none)
    ["a.x=b.y"] [⟨⟨"a", "x"⟩, ⟨"b", "y"⟩⟩] rfl (by decide) (by decide)

/-! ## Claim theorems: PROJECTION columns (C5) -/

theorem projAttrFromParts_single (t : String) : projAttrFromParts [t] = .ok ⟨"", t⟩ := by
  simp [projAttrFromParts, idx]

theorem projAttrFromParts_pair (t1 t2 : String) (rest : List String) :
    projAttrFromParts (t1 :: t2 :: rest) = .ok ⟨t1, t2⟩ := by
  simp [projAttrFromParts, idx]

/-- C5 as stated is false: the code also trims each dot-split token
(`s.split('.').map(|s| s.trim())`, line 169) while the claim's "part
before the dot / part after" keeps them literal.  At line `"a . x"`
(inside the claim's one-dot case) the code yields `a.x`, the claim
`⟨"a ", " x"⟩`. -/
theorem projection_token_trim_cex :
    parseFunc (.mk "PROJECTION" 0.0 0 "a . x\n" [] none) =
      .ok (some (.project ⟨[⟨"a", "x"⟩]⟩)) ∧
    claimProjectionColumn "a . x" = some ⟨"a ", " x"⟩ ∧
    Attribute.mk "a" "x" ≠ Attribute.mk "a " " x" := by
  decide

/-- The source's column parser agrees with the amended claim's wording
("trimmed then split on `.`, tokens also trimmed") wherever the latter
is defined, via the trim/split commutation. -/
theorem amendedProjectionColumn_sound (line : String) (a : Attribute)
    (h : amendedProjectionColumn line = some a) :
    projAttrFromParts ((splitOnChar '.' line).map trimS) = .ok a := by
  rw [← map_trimS_splitOnChar_trimS '.' (by decide) line]
  unfold amendedProjectionColumn at h
  cases htoks : (splitOnChar '.' (trimS line)).map trimS with
  | nil => rw [htoks] at h; simp at h
  | cons t ts =>
    cases ts with
    | nil =>
      rw [htoks] at h
      simp only [Option.some.injEq] at h
      rw [← h]
      exact projAttrFromParts_single t
    | cons t2 ts2 =>
      cases ts2 with
      | nil =>
        rw [htoks] at h
        simp only [Option.some.injEq] at h
        rw [← h]
        exact projAttrFromParts_pair t t2 []
      | cons t3 ts3 => rw [htoks] at h; simp at h

/-- The source's `PROJECTION` loop agrees with the amended claim's
wording, one `Attribute` per line in order, wherever the latter is
defined. -/
theorem parseColumns_amended (lines : List String) (cols : List Attribute)
    (h : lines.mapM amendedProjectionColumn = some cols) :
    parseColumns lines = .ok cols := by
  induction lines generalizing cols with
  | nil =>
    simp only [List.mapM_nil, pure, Option.some.injEq] at h
    rw [← h]
    rfl
  | cons line rest ih =>
    rw [List.mapM_cons] at h
    cases hc : amendedProjectionColumn line with
    | none => rw [hc] at h; simp at h
    | some a0 =>
      rw [hc] at h
      cases hrest : rest.mapM amendedProjectionColumn with
      | none => rw [hrest] at h; simp at h
      | some as' =>
        rw [hrest] at h
        have h2 : a0 :: as' = cols := Option.some.inj h
        unfold parseColumns
        simp only [amendedProjectionColumn_sound line a0 hc, ih as' hrest]
        rw [← h2]

/-- C5 amended: on a `PROJECTION` node, `extra_info` is newline-split
with empty lines dropped, each line trimmed then split on `.` with each
resulting token *also trimmed*; a dotless line gives the empty-string
table placeholder with the token as attribute name, a one-dot line gives
the tokens before and after the dot as table and attribute name; the
resulting `Attribute`s form `Project.columns` in line order. -/
theorem projection_columns_amended (n : Node) (cols : List Attribute)
    (hname : n.name = "PROJECTION")
    (hcols : (nonEmptyLines n.extra_info).mapM amendedProjectionColumn = some cols) :
    parseFunc n = .ok (some (.project ⟨cols⟩)) := by
  unfold parseFunc
  rw [hname]
  simp only [reduceIte, String.reduceEq, parseColumns_amended _ cols hcols]

/-- C5 witness: the spec's example
`"a.x\nid\n" ↦ Project{[a.x, (empty).id]}`. -/
theorem projection_columns_amended_witness :
    parseFunc (.mk "PROJECTION" 0.0 0 "a.x\nid\n" [] none) =
      .ok (some (.project ⟨[⟨"a", "x"⟩, ⟨"", "id"⟩]⟩)) :=
  projection_columns_amended (.mk "PROJECTION" 0.0 0 "a.x\nid\n" [] none)
    [⟨"a", "x"⟩, ⟨"", "id"⟩] rfl (by decide)

/-! ## Tree-level lemmas about the traversal -/

mutual
/-- A successful traversal changes nothing but `attr` fields: the
attr-erased tree is unchanged. -/
theorem travNode_strip (f : Node → Except PanicKind (Option Op)) (n : Node) :
    ∀ n' log, travNode f n = .ok (n', log) → stripAttrs n' = stripAttrs n := by
  intro n' log h
  match n with
  | .mk nm t c e [] a =>
    rw [travNode] at h
    split at h
    · exact absurd h (by simp)
    · simp only [Except.ok.injEq, Prod.mk.injEq] at h
      obtain ⟨h1, -⟩ := h
      rw [← h1]
      rfl
  | .mk nm t c e (c0 :: cs) a =>
    rw [travNode] at h
    split at h
    · exact absurd h (by simp)
    · rename_i c0' log0 heq0
      split at h
      · exact absurd h (by simp)
      · rename_i a' heqf
        split at h
        · exact absurd h (by simp)
        · rename_i cs' logs heql
          simp only [Except.ok.injEq, Prod.mk.injEq] at h
          obtain ⟨h1, -⟩ := h
          rw [← h1]
          have hs0 := travNode_strip f c0 c0' log0 heq0
          have hsl := travList_strip f cs cs' logs heql
          simp only [stripAttrs, stripAttrsL, hs0, hsl]

theorem travList_strip (f : Node → Except PanicKind (Option Op)) (l : List Node) :
    ∀ l' lg, travList f l = .ok (l', lg) → stripAttrsL l' = stripAttrsL l := by
  intro l' lg h
  match l with
  | [] =>
    rw [travList] at h
    simp only [Except.ok.injEq, Prod.mk.injEq] at h
    obtain ⟨h1, -⟩ := h
    rw [← h1]
  | x :: xs =>
    rw [travList] at h
    split at h
    · exact absurd h (by simp)
    · rename_i x' lg0 heq0
      split at h
      · exact absurd h (by simp)
      · rename_i xs' lgs heql
        simp only [Except.ok.injEq, Prod.mk.injEq] at h
        obtain ⟨h1, -⟩ := h
        rw [← h1]
        simp only [stripAttrsL, travNode_strip f x x' lg0 heq0,
          travList_strip f xs xs' lgs heql]
end

mutual
/-- The instrumented visit sequence of a successful traversal is, modulo
`attr` fields, exactly the spec's first-child/self/rest order on the
input tree. -/
theorem travNode_log (f : Node → Except PanicKind (Option Op)) (n : Node) :
    ∀ n' log, travNode f n = .ok (n', log) →
      log.map stripAttrs = inorderList (stripAttrs n) := by
  intro n' log h
  match n with
  | .mk nm t c e [] a =>
    rw [travNode] at h
    split at h
    · exact absurd h (by simp)
    · simp only [Except.ok.injEq, Prod.mk.injEq] at h
      obtain ⟨-, h2⟩ := h
      rw [← h2]
      rfl
  | .mk nm t c e (c0 :: cs) a =>
    rw [travNode] at h
    split at h
    · exact absurd h (by simp)
    · rename_i c0' log0 heq0
      split at h
      · exact absurd h (by simp)
      · rename_i a' heqf
        split at h
        · exact absurd h (by simp)
        · rename_i cs' logs heql
          simp only [Except.ok.injEq, Prod.mk.injEq] at h
          obtain ⟨-, h2⟩ := h
          rw [← h2]
          have hl0 := travNode_log f c0 c0' log0 heq0
          have hll := travList_log f cs cs' logs heql
          have hs0 := travNode_strip f c0 c0' log0 heq0
          simp only [List.map_append, List.map_cons, hl0, hll]
          simp only [stripAttrs, stripAttrsL, inorderList, hs0]

theorem travList_log (f : Node → Except PanicKind (Option Op)) (l : List Node) :
    ∀ l' lg, travList f l = .ok (l', lg) →
      lg.map stripAttrs = inorderListL (stripAttrsL l) := by
  intro l' lg h
  match l with
  | [] =>
    rw [travList] at h
    simp only [Except.ok.injEq, Prod.mk.injEq] at h
    obtain ⟨-, h2⟩ := h
    rw [← h2]
    rfl
  | x :: xs =>
    rw [travList] at h
    split at h
    · exact absurd h (by simp)
    · rename_i x' lg0 heq0
      split at h
      · exact absurd h (by simp)
      · rename_i xs' lgs heql
        simp only [Except.ok.injEq, Prod.mk.injEq] at h
        obtain ⟨-, h2⟩ := h
        rw [← h2]
        simp only [List.map_append, travNode_log f x x' lg0 heq0,
          travList_log f xs xs' lgs heql]
        simp only [stripAttrsL, inorderListL]
end

mutual
/-- The spec's visit order enumerates exactly the nodes of the tree: it
is a permutation of the preorder enumeration. -/
theorem inorderList_perm_allNodes (n : Node) : (inorderList n).Perm (allNodes n) := by
  match n with
  | .mk nm t c e [] a => rw [inorderList, allNodes, allNodesL]
  | .mk nm t c e (c0 :: cs) a =>
    rw [inorderList, allNodes, allNodesL]
    exact List.Perm.trans List.perm_middle
      (List.Perm.cons _
        ((inorderList_perm_allNodes c0).append (inorderListL_perm_allNodesL cs)))

theorem inorderListL_perm_allNodesL (l : List Node) :
    (inorderListL l).Perm (allNodesL l) := by
  match l with
  | [] => rfl
  | x :: xs =>
    rw [inorderListL, allNodesL]
    exact (inorderList_perm_allNodes x).append (inorderListL_perm_allNodesL xs)
end

/-! ## Per-node behaviour of `parse_func` on pass-through kinds and the
Scan invariant -/

/-- On the four pass-through kinds `parse_func` succeeds and leaves
`attr` exactly as it was. -/
theorem parseFunc_pass (m : Node) (hm : m.name ∈ passKinds) :
    parseFunc m = .ok m.attr := by
  simp only [passKinds, List.mem_cons, List.not_mem_nil, or_false] at hm
  unfold parseFunc
  rcases hm with h | h | h | h <;> simp [h]

/-- Whatever `parse_func` successfully writes into a node that started
with an empty `attr` satisfies the Scan invariant. -/
theorem parseFunc_scanOk (m : Node) (hm : m.attr = none) (a' : Option Op)
    (h : parseFunc m = .ok a') : attrScanOk a' = true := by
  unfold parseFunc at h
  simp only [] at h
  split at h
  · -- HASH_JOIN
    split at h
    · exact absurd h (by simp)
    · split at h
      · split at h
        · exact absurd h (by simp)
        · rw [← Except.ok.inj h]
          rfl
      · split at h
        · rw [← Except.ok.inj h, hm]
          rfl
        · exact absurd h (by simp)
  · split at h
    · -- SEQ_SCAN
      split at h
      · exact absurd h (by simp)
      · split at h
        · exact absurd h (by simp)
        · rw [← Except.ok.inj h]
          simp only [attrScanOk, List.all_eq_true, List.mem_map, List.mem_filter]
          rintro x ⟨s, hs, rfl⟩
          simp
    · split at h
      · -- PROJECTION
        split at h
        · exact absurd h (by simp)
        · rw [← Except.ok.inj h]
          rfl
      · split at h
        · -- pass-through
          rw [← Except.ok.inj h, hm]
          rfl
        · split at h
          · -- FILTER
            rw [← Except.ok.inj h]
            rfl
          · exact absurd h (by simp)

mutual
/-- Starting from a tree with all `attr` fields empty, a successful
traversal leaves the `attr` of every pass-through node empty. -/
theorem travNode_pass (n : Node) : ∀ n' log, allAttrsNone n = true →
    travNode parseFunc n = .ok (n', log) → passAttrsNone n' = true := by
  intro n' log hnone h
  match n with
  | .mk nm t c e [] a =>
    simp only [allAttrsNone, allAttrsNoneL, Bool.and_true, Option.isNone_iff_eq_none] at hnone
    rw [travNode] at h
    split at h
    · exact absurd h (by simp)
    · rename_i a' heqf
      simp only [Except.ok.injEq, Prod.mk.injEq] at h
      obtain ⟨h1, -⟩ := h
      rw [← h1]
      simp only [passAttrsNone, passAttrsNoneL, Bool.and_true]
      by_cases hp : nm ∈ passKinds
      · have := parseFunc_pass (.mk nm t c e [] a) hp
        rw [this] at heqf
        have ha' : a' = a := (Except.ok.inj heqf).symm
        rw [ha', hnone]
        simp
      · rw [show passKinds.contains nm = false by
          rw [Bool.eq_false_iff]; intro hc; exact hp (List.mem_of_elem_eq_true hc)]
        simp
  | .mk nm t c e (c0 :: cs) a =>
    simp only [allAttrsNone, allAttrsNoneL, Option.isNone_iff_eq_none, Bool.and_eq_true] at hnone
    obtain ⟨ha, hc0, hcs⟩ := hnone
    rw [travNode] at h
    split at h
    · exact absurd h (by simp)
    · rename_i c0' log0 heq0
      split at h
      · exact absurd h (by simp)
      · rename_i a' heqf
        split at h
        · exact absurd h (by simp)
        · rename_i cs' logs heql
          simp only [Except.ok.injEq, Prod.mk.injEq] at h
          obtain ⟨h1, -⟩ := h
          rw [← h1]
          simp only [passAttrsNone, passAttrsNoneL, Bool.and_eq_true]
          refine ⟨?_, travNode_pass c0 c0' log0 hc0 heq0, travList_pass cs cs' logs hcs heql⟩
          by_cases hp : nm ∈ passKinds
          · have := parseFunc_pass (.mk nm t c e (c0' :: cs) a) hp
            rw [this] at heqf
            have ha' : a' = a := (Except.ok.inj heqf).symm
            rw [ha', ha]
            simp
          · rw [show passKinds.contains nm = false by
              rw [Bool.eq_false_iff]; intro hc; exact hp (List.mem_of_elem_eq_true hc)]
            simp

theorem travList_pass (l : List Node) : ∀ l' lg, allAttrsNoneL l = true →
    travList parseFunc l = .ok (l', lg) → passAttrsNoneL l' = true := by
  intro l' lg hnone h
  match l with
  | [] =>
    rw [travList] at h
    simp only [Except.ok.injEq, Prod.mk.injEq] at h
    obtain ⟨h1, -⟩ := h
    rw [← h1]
    rfl
  | x :: xs =>
    simp only [allAttrsNoneL, Bool.and_eq_true] at hnone
    obtain ⟨hx, hxs⟩ := hnone
    rw [travList] at h
    split at h
    · exact absurd h (by simp)
    · rename_i x' lg0 heq0
      split at h
      · exact absurd h (by simp)
      · rename_i xs' lgs heql
        simp only [Except.ok.injEq, Prod.mk.injEq] at h
        obtain ⟨h1, -⟩ := h
        rw [← h1]
        simp only [passAttrsNoneL, Bool.and_eq_true]
        exact ⟨travNode_pass x x' lg0 hx heq0, travList_pass xs xs' lgs hxs heql⟩
end

mutual
/-- Starting from a tree with all `attr` fields empty, every `Scan`
payload a successful traversal leaves in the tree satisfies the Scan
invariant. -/
theorem travNode_scanOk (n : Node) : ∀ n' log, allAttrsNone n = true →
    travNode parseFunc n = .ok (n', log) → scanInvariantHolds n' = true := by
  intro n' log hnone h
  match n with
  | .mk nm t c e [] a =>
    simp only [allAttrsNone, allAttrsNoneL, Bool.and_true, Option.isNone_iff_eq_none] at hnone
    rw [travNode] at h
    split at h
    · exact absurd h (by simp)
    · rename_i a' heqf
      simp only [Except.ok.injEq, Prod.mk.injEq] at h
      obtain ⟨h1, -⟩ := h
      rw [← h1]
      simp only [scanInvariantHolds, scanInvariantHoldsL, Bool.and_true]
      exact parseFunc_scanOk (.mk nm t c e [] a) hnone a' heqf
  | .mk nm t c e (c0 :: cs) a =>
    simp only [allAttrsNone, allAttrsNoneL, Option.isNone_iff_eq_none, Bool.and_eq_true] at hnone
    obtain ⟨ha, hc0, hcs⟩ := hnone
    rw [travNode] at h
    split at h
    · exact absurd h (by simp)
    · rename_i c0' log0 heq0
      split at h
      · exact absurd h (by simp)
      · rename_i a' heqf
        split at h
        · exact absurd h (by simp)
        · rename_i cs' logs heql
          simp only [Except.ok.injEq, Prod.mk.injEq] at h
          obtain ⟨h1, -⟩ := h
          rw [← h1]
          simp only [scanInvariantHolds, scanInvariantHoldsL, Bool.and_eq_true]
          exact ⟨parseFunc_scanOk (.mk nm t c e (c0' :: cs) a) ha a' heqf,
            travNode_scanOk c0 c0' log0 hc0 heq0,
            travList_scanOk cs cs' logs hcs heql⟩

theorem travList_scanOk (l : List Node) : ∀ l' lg, allAttrsNoneL l = true →
    travList parseFunc l = .ok (l', lg) → scanInvariantHoldsL l' = true := by
  intro l' lg hnone h
  match l with
  | [] =>
    rw [travList] at h
    simp only [Except.ok.injEq, Prod.mk.injEq] at h
    obtain ⟨h1, -⟩ := h
    rw [← h1]
    rfl
  | x :: xs =>
    simp only [allAttrsNoneL, Bool.and_eq_true] at hnone
    obtain ⟨hx, hxs⟩ := hnone
    rw [travList] at h
    split at h
    · exact absurd h (by simp)
    · rename_i x' lg0 heq0
      split at h
      · exact absurd h (by simp)
      · rename_i xs' lgs heql
        simp only [Except.ok.injEq, Prod.mk.injEq] at h
        obtain ⟨h1, -⟩ := h
        rw [← h1]
        simp only [scanInvariantHoldsL, Bool.and_eq_true]
        exact ⟨travNode_scanOk x x' lg0 hx heq0, travList_scanOk xs xs' lgs hxs heql⟩
end

/-! ## Claim theorems: traversal (C1), Scan invariant (C4), frame (C9) -/

/-- C1: `parse_tree_extra_info` applies the per-kind parsing function to
every node of the tree exactly once, visiting a node's first child, then
the node itself, then the remaining children left-to-right: on a
successful run the instrumented visit sequence is (modulo the `attr`
fields being filled in along the way) precisely the spec-ordered
`inorderList` of the input tree, which in turn is a permutation of the
tree's node enumeration. -/
theorem inorder_enrichment_visits_every_node_once (n n' : Node) (log : List Node)
    (h : travNode parseFunc n = .ok (n', log)) :
    parse_tree_extra_info n = .ok n' ∧
    log.map stripAttrs = inorderList (stripAttrs n) ∧
    (inorderList (stripAttrs n)).Perm (allNodes (stripAttrs n)) := by
  refine ⟨?_, travNode_log parseFunc n n' log h,
    inorderList_perm_allNodes (stripAttrs n)⟩
  unfold parse_tree_extra_info
  rw [h]

/-- C1 witness: a four-operator profile is enriched with the visit
sequence SEQ_SCAN(a), HASH_JOIN, SEQ_SCAN(b), Query, PROJECTION. -/
theorem inorder_enrichment_visits_every_node_once_witness :
    parse_tree_extra_info sampleTree = .ok sampleEnriched ∧
    sampleLog.map stripAttrs = inorderList (stripAttrs sampleTree) ∧
    (inorderList (stripAttrs sampleTree)).Perm (allNodes (stripAttrs sampleTree)) :=
  inorder_enrichment_visits_every_node_once sampleTree sampleEnriched sampleLog rfl

/-- C4: starting from a freshly deserialized tree (all `attr` fields
empty), every `Scan` operator a successful enrichment produces carries
attributes whose `table_name` equals the Scan's own `table_name`,
regardless of the input text. -/
theorem scan_attributes_qualified_by_scan_table (n n' : Node)
    (hnone : allAttrsNone n = true)
    (h : parse_tree_extra_info n = .ok n') :
    scanInvariantHolds n' = true := by
  unfold parse_tree_extra_info at h
  split at h
  · exact absurd h (by simp)
  · rename_i root' lg heq
    rw [← Except.ok.inj h]
    exact travNode_scanOk n root' lg hnone heq

/-- C4 witness: both scans of the fixture satisfy the invariant after
enrichment. -/
theorem scan_attributes_qualified_by_scan_table_witness :
    scanInvariantHolds sampleEnriched = true :=
  scan_attributes_qualified_by_scan_table sampleTree sampleEnriched rfl rfl

/-- C9: a successful enrichment changes nothing but `attr` fields —
names, timings, cardinalities, annotations and the children structure of
every node are untouched — and on a tree that starts with all `attr`
empty, the pass-through kinds (`CHUNK_SCAN`, `RESULT_COLLECTOR`,
`SIMPLE_AGGREGATE`, `Query`) end with their `attr` still empty. -/
theorem enrichment_mutates_only_attr (n n' : Node)
    (hnone : allAttrsNone n = true)
    (h : parse_tree_extra_info n = .ok n') :
    stripAttrs n' = stripAttrs n ∧ passAttrsNone n' = true := by
  unfold parse_tree_extra_info at h
  split at h
  · exact absurd h (by simp)
  · rename_i root' lg heq
    rw [← Except.ok.inj h]
    exact ⟨travNode_strip parseFunc n root' lg heq,
      travNode_pass n root' lg hnone heq⟩

/-- C9 witness: the fixture's enrichment only fills `attr` fields and
leaves the `Query` node's `attr` empty. -/
theorem enrichment_mutates_only_attr_witness :
    stripAttrs sampleEnriched = stripAttrs sampleTree ∧
    passAttrsNone sampleEnriched = true :=
  enrichment_mutates_only_attr sampleTree sampleEnriched rfl rfl
